import Mathlib

/-!
Verification of the step-graph execution engine described in the repository
specification against the executor code present in the repository:
the DAGExecutor of src/AGENT_CHAINING_PATTERNS.md (lines 488-559) and
SequentialPipeline.execute of src/unnamed/part_000 (lines 362-396).

The JavaScript is embedded shallowly: JS values become the inductive `Val`,
the injected agent call becomes a function `Val → Except String Val`
(`Except.error` models a rejected promise), and the single-threaded event
loop is modelled by the two phases it actually runs for this code: a
synchronous launch pass, in which `roots.map(executeNode)` runs every
root's guards, contextBuilder and agent invocation up to the agent call's
first await before any completion continuation can run, followed by the
completion microtasks (`results.set` / `completed.add`, or a rejection),
processed in launch order as the deterministic representative of the
microtask order; the first rejection becomes the rejection of the whole
`Promise.all` while sibling continuations still run.  Executions
additionally record a trace of agent invocations (`CallEvent`), each with
a snapshot of the results map and the completed set at invocation time;
the trace is a pure observation and does not influence control flow.
-/

namespace SdkExec

/-- JS values, as far as the executor code inspects them:
objects (insertion-ordered key/value lists), strings, numbers, null. -/
inductive Val where
  | null : Val
  | nat : Nat → Val
  | str : String → Val
  | obj : List (String × Val) → Val

/-- A node of the dag argument of DAGExecutor.execute:
`id`, `dependencies` (absent modelled as `[]`), the optional
`contextBuilder`, and the agent call `agent[node.method](node.query, ctx)`
with agent, method and query already fixed, so only the context argument
varies.  `Except.error` models a rejected promise. -/
structure DagNode where
  id : String
  dependencies : List String
  contextBuilder : Option (Val → Val)
  agent : Val → Except String Val

/-- The dag object passed to DAGExecutor.execute. -/
structure Dag where
  nodes : List DagNode

/-- `results.get(k)`: `Val.null` models the `undefined` returned for a
missing key. -/
def lookupRes : List (String × Val) → String → Val
  | [], _ => Val.null
  | p :: rest, k => if p.1 = k then p.2 else lookupRes rest k

/-- `Map.set(k, v)`: overwrite in place if the key is present, otherwise
append (JS Map preserves insertion order). -/
def mapSet : List (String × Val) → String → Val → List (String × Val)
  | [], k, v => [(k, v)]
  | p :: rest, k, v =>
    if p.1 = k then (k, v) :: rest else p :: mapSet rest k v

/-- `Set.add(k)`: append if absent. -/
def setAdd (s : List String) (k : String) : List String :=
  if k ∈ s then s else s ++ [k]

/-- The `depResults` object: `node.dependencies.forEach(depId =>
depResults[depId] = results.get(depId))`. -/
def depResults (n : DagNode) (rs : List (String × Val)) : List (String × Val) :=
  n.dependencies.map (fun d => (d, lookupRes rs d))

/-- `const context = node.contextBuilder ? node.contextBuilder(depResults)
: depResults`. -/
def buildContext (n : DagNode) (rs : List (String × Val)) : Val :=
  match n.contextBuilder with
  | some f => f (Val.obj (depResults n rs))
  | none => Val.obj (depResults n rs)

/-- The context a dependency-free node receives: its `depResults` object is
always empty, so the built context does not depend on the results map. -/
def rootCtx (n : DagNode) : Val :=
  buildContext n []

/-- One recorded agent invocation: the node, the snapshots of the results
map and of the completed set the instant the context was built, and the
context value passed to the agent. -/
structure CallEvent where
  node : DagNode
  resultsSnap : List (String × Val)
  completedSnap : List String
  builtContext : Val

/-- The mutable state of one DAGExecutor.execute call: the `results` map,
the `completed` set, and the (purely observational) invocation trace. -/
structure ExecSt where
  results : List (String × Val)
  completed : List String
  trace : List CallEvent

/-- The fresh state allocated at the top of every execute call
(`const results = new Map(); const completed = new Set();`). -/
def initExecSt : ExecSt :=
  ⟨[], [], []⟩

/-- First-rejection combination for `Promise.all`: the first rejection (in
the deterministic microtask order of the model) becomes the rejection of
the whole `Promise.all`; later rejections are dropped, but their promises
still ran. -/
def firstErr (a b : Option String) : Option String :=
  match a with
  | some e => some e
  | none => b

/-- `dag.nodes.filter(node => !node.dependencies ||
node.dependencies.length === 0)`. -/
def roots (dag : Dag) : List DagNode :=
  dag.nodes.filter (fun n => n.dependencies.isEmpty)

/-- The synchronous launch prefix of executeNode for one dependency-free
node, exactly as the JS event loop runs it inside `roots.map(...)`: the
`completed` and `executing` guards, the (empty) `depResults` object, the
contextBuilder call and the agent invocation all run synchronously, up to
the agent call's first await; `executing.set(node.id, promise)` also runs
synchronously, so a later launch of a node with the same id awaits the
in-flight promise instead of invoking again.  The accumulator carries the
run state — whose results map and completed set a launch never changes —
and the `executing` list of in-flight promises as (id, eventual outcome)
pairs.  Dependency-bearing nodes never reach this code: execute only ever
passes the dependency-free roots to executeNode, and the dependency-await
branch recurses on dependencies, never dependents. -/
def launchStep (acc : ExecSt × List (String × Except String Val)) (n : DagNode) :
    ExecSt × List (String × Except String Val) :=
  if n.id ∈ acc.1.completed then acc
  else if n.id ∈ acc.2.map Prod.fst then acc
  else
    let ctx := buildContext n acc.1.results
    ({ acc.1 with trace := acc.1.trace ++ [⟨n, acc.1.results, acc.1.completed, ctx⟩] },
      acc.2 ++ [(n.id, n.agent ctx)])

/-- The synchronous launch pass of execute over the roots.  In the JS,
every root is launched before any completion continuation can run: the
continuations (`results.set` / `completed.add` after the agent's await)
are microtasks queued behind the synchronous `roots.map` loop, so during
the whole pass the results map and the completed set stay as execute
created them — empty. -/
def launchPhase (L : List DagNode) (acc : ExecSt × List (String × Except String Val)) :
    ExecSt × List (String × Except String Val) :=
  L.foldl launchStep acc

/-- One completion continuation: on fulfilment, `results.set(node.id,
result.data)` then `completed.add(node.id)` (one atomic microtask — no
await between them); on rejection, the node's promise rejects, Promise.all
keeps the first rejection, and sibling continuations still run. -/
def settleStep (acc : ExecSt × Option String) (p : String × Except String Val) :
    ExecSt × Option String :=
  match p.2 with
  | Except.error e => (acc.1, firstErr acc.2 (some e))
  | Except.ok v =>
    ({ acc.1 with
       results := mapSet acc.1.results p.1 v,
       completed := setAdd acc.1.completed p.1 }, acc.2)

/-- The completion continuations of all launched nodes, run after the
launch pass.  With the modelled agents every promise is settled by the
time the launch loop finishes; the model runs the continuations in launch
order as its deterministic representative of the microtask order. -/
def settlePhase (pend : List (String × Except String Val)) (acc : ExecSt × Option String) :
    ExecSt × Option String :=
  pend.foldl settleStep acc

/-- DAGExecutor.execute: allocate fresh state, launch every dependency-free
root synchronously, then run the completion continuations and combine
rejections first-wins. -/
def execRun (dag : Dag) : ExecSt × Option String :=
  settlePhase (launchPhase (roots dag) (initExecSt, [])).2
    ((launchPhase (roots dag) (initExecSt, [])).1, none)

/-- The final state of a DAGExecutor.execute call (observation). -/
def execState (dag : Dag) : ExecSt :=
  (execRun dag).1

/-- DAGExecutor.execute as seen by the caller: the fulfilled value
`Object.fromEntries(results)` or the rejection. -/
def DAGExecutor.execute (dag : Dag) : Except String (List (String × Val)) :=
  match execRun dag with
  | (st, none) => Except.ok st.results
  | (_, some e) => Except.error e

/-- The ids of the nodes whose agent was invoked, in invocation order. -/
def invokedIds (dag : Dag) : List String :=
  (execState dag).trace.map (fun e => e.node.id)

/-- Two sequential execute calls on the same DAGExecutor instance (its
constructor stores only the client; execute keeps no instance state, so
each call is a full fresh run). -/
def runTwice (dag : Dag) : (ExecSt × Option String) × (ExecSt × Option String) :=
  (execRun dag, execRun dag)

/-- Pointwise property of every recorded event of a trace (binder-free
form of universal quantification over a list). -/
def EventsOK (P : CallEvent → Prop) : List CallEvent → Prop
  | [] => True
  | e :: es => P e ∧ EventsOK P es

/-! SequentialPipeline.execute (src/unnamed/part_000, lines 362-396).
Each step's `agent[method](query, stepContext)` call is modelled as a total
function from the context value to a result record with a `success` flag —
the embedding covers runs in which operations settle (resolve), which is
the case the claims about unsuccessful results speak of.  The `duration`
timing metadata (Date.now) is real-time and is omitted. -/

/-- The resolved value of a step's agent call: `{ success, data, error }`. -/
structure SRes where
  success : Bool
  data : Val
  error : String

/-- A step of the sequential pipeline: `{ name, agent, method, query,
contextBuilder }`, with agent, method and query folded into `op`. -/
structure SeqStep where
  name : String
  contextBuilder : Option (List (String × SRes) → List (String × Val) → Val)
  op : Val → SRes

/-- JS object assignment `context[name] = v`: overwrite in place or append. -/
def ctxSet : List (String × Val) → String → Val → List (String × Val)
  | [], k, v => [(k, v)]
  | p :: rest, k, v =>
    if p.1 = k then (k, v) :: rest else p :: ctxSet rest k v

/-- The loop state of SequentialPipeline.execute: the `results` array
(entries `{step: name, result}`), the accumulated `context` object, the
names of the steps whose operation was invoked (observation), and whether
the loop was left by `break`. -/
structure SeqSt where
  results : List (String × SRes)
  context : List (String × Val)
  invoked : List String
  halted : Bool

/-- `let context = {}; let results = [];`. -/
def initSeqSt : SeqSt :=
  ⟨[], [], [], false⟩

/-- `const stepContext = contextBuilder ? contextBuilder(results, context)
: context`. -/
def stepContextOf (s : SeqStep) (st : SeqSt) : Val :=
  match s.contextBuilder with
  | some f => f st.results st.context
  | none => Val.obj st.context

/-- The `for (const step of steps)` loop: invoke the operation on the built
context; on success push `{step, result}` and set `context[name]`; on an
unsuccessful result, `break`. -/
def seqRun : List SeqStep → SeqSt → SeqSt
  | [], st => st
  | s :: rest, st =>
    if st.halted then st
    else
      let r := s.op (stepContextOf s st)
      let st1 : SeqSt := { st with invoked := st.invoked ++ [s.name] }
      if r.success then
        seqRun rest
          { st1 with
            results := st1.results ++ [(s.name, r)],
            context := ctxSet st1.context s.name r.data }
      else { st1 with halted := true }

/-- SequentialPipeline.execute: runs the loop from fresh state and returns
`results`. -/
def SequentialPipeline.execute (steps : List SeqStep) : List (String × SRes) :=
  (seqRun steps initSeqSt).results

/-! registerSteps of the StepGraphExecutor.  Modelled from the spec: the
validated registration entry point (`registerSteps` of the
StepGraphExecutor / the registration of the PipelineEngine whose source
`src/engine/PipelineEngine.js` is referenced by PHASE_1_COMPLETE.md but is
not present in the repository).  Following the spec's words: it "validates
the set — fails with CycleError if the dependency graph contains a cycle
(detected via topological sort / DFS with recursion-stack tracking), fails
with UnknownDependencyError if a step references a dependency name not
present in the set, fails with DuplicateStepError if two steps share a
name", the checks made in the listed order, and "on success, stores the
validated, immutable step set"; no execution state exists until `run`. -/

/-- A declared step as registerSteps sees it: name and dependency names. -/
structure SpecStep where
  name : String
  dependencies : List String

/-- Names of a step set. -/
def namesOf (steps : List SpecStep) : List String :=
  steps.map (fun s => s.name)

/-- One layer of the topological sort: the steps not yet sorted whose
dependencies are all sorted. -/
def eligible (steps : List SpecStep) (done : List String) : List String :=
  (steps.filter
    (fun s => decide (s.name ∉ done) && s.dependencies.all (fun d => decide (d ∈ done)))).map
    (fun s => s.name)

/-- Saturate the topological sort (at most one new layer per iteration;
`steps.length` iterations suffice). -/
def topoPass (steps : List SpecStep) : Nat → List String → List String
  | 0, done => done
  | Nat.succ n, done =>
    let e := eligible steps done
    if e.isEmpty then done else topoPass steps n (done ++ e)

/-- Cycle test: some step's name is never topologically sorted. -/
def detectCycle (steps : List SpecStep) : Bool :=
  let done := topoPass steps steps.length []
  steps.any (fun s => decide (s.name ∉ done))

/-- The structural registration errors of the spec's taxonomy. -/
inductive RegError where
  | cycleError : RegError
  | unknownDependencyError : RegError
  | duplicateStepError : RegError
deriving DecidableEq

/-- Modelled from the spec: registerSteps — validate, in the spec's listed
order, and on success store the validated immutable step set. -/
def registerSteps (steps : List SpecStep) : Except RegError (List SpecStep) :=
  if detectCycle steps then Except.error RegError.cycleError
  else if steps.any (fun s => s.dependencies.any (fun d => decide (d ∉ namesOf steps))) then
    Except.error RegError.unknownDependencyError
  else if (namesOf steps).Nodup then Except.ok steps
  else Except.error RegError.duplicateStepError

/-- The dependency graph of a step set: an edge from `a` to `b` when a step
named `a` declares a dependency on `b`. -/
def DepEdge (steps : List SpecStep) (a b : String) : Prop :=
  ∃ s, s ∈ steps ∧ s.name = a ∧ b ∈ s.dependencies

/-- The dependency graph contains a cycle: some name reaches itself
through at least one edge. -/
def HasCycle (steps : List SpecStep) : Prop :=
  ∃ a, Relation.TransGen (DepEdge steps) a a

/-! Concrete fixtures for counterexamples and witnesses. -/

/-- A dependency-free node whose agent resolves with `1`. -/
def nodeA : DagNode :=
  ⟨"A", [], none, fun _ => Except.ok (Val.nat 1)⟩

/-- A node depending on "A" whose agent resolves with `2`. -/
def nodeB : DagNode :=
  ⟨"B", ["A"], none, fun _ => Except.ok (Val.nat 2)⟩

/-- A dependency-free node whose agent rejects. -/
def nodeAfail : DagNode :=
  ⟨"A", [], none, fun _ => Except.error "boom"⟩

/-- A dependency-free node with an identity contextBuilder, recording in
its built context exactly what the builder received. -/
def nodeBident : DagNode :=
  ⟨"B", [], some (fun v => v), fun _ => Except.ok (Val.nat 2)⟩

/-- Two-node dag: root "A", dependent "B". -/
def dagAB : Dag :=
  ⟨[nodeA, nodeB]⟩

/-- Dag whose root fails and whose second node depends on it. -/
def dagFailDep : Dag :=
  ⟨[nodeAfail, nodeB]⟩

/-- Single-node dag whose only step's operation fails. -/
def dagFailOnly : Dag :=
  ⟨[nodeAfail]⟩

/-- Two independent roots, the second with an identity builder. -/
def dagTwoRoots : Dag :=
  ⟨[nodeA, nodeBident]⟩

/-- A two-step cyclic step set for registerSteps. -/
def cyclicSteps : List SpecStep :=
  [⟨"A", ["B"]⟩, ⟨"B", ["A"]⟩]

/-- Sequential fixture: a step that succeeds with `1`. -/
def seqOk : SeqStep :=
  ⟨"s0", none, fun _ => ⟨true, Val.nat 1, ""⟩⟩

/-- Sequential fixture: a step whose operation returns an unsuccessful
result. -/
def seqBad : SeqStep :=
  ⟨"s1", none, fun _ => ⟨false, Val.null, "failed"⟩⟩

/-- Sequential fixture: a later step that would succeed with `3`. -/
def seqLater : SeqStep :=
  ⟨"s2", none, fun _ => ⟨true, Val.nat 3, ""⟩⟩

/-- The three-step sequential pipeline whose middle step fails. -/
def seqSteps : List SeqStep :=
  [seqOk, seqBad, seqLater]

/-! Lemma layer. -/

theorem EventsOK_iff_forall {P : CallEvent → Prop} (l : List CallEvent) :
    EventsOK P l ↔ ∀ e ∈ l, P e := by
  induction l with
  | nil => simp [EventsOK]
  | cons e es ih => simp [EventsOK, ih]

theorem roots_dependencies (dag : Dag) : ∀ n ∈ roots dag, n.dependencies = [] := by
  intro n hn
  have h := List.mem_filter.mp hn
  simpa [List.isEmpty_iff] using h.2

theorem execRun_def (dag : Dag) :
    execRun dag =
      settlePhase (launchPhase (roots dag) (initExecSt, [])).2
        ((launchPhase (roots dag) (initExecSt, [])).1, none) :=
  rfl

theorem firstErr_some_ne (a : Option String) (e : String) : firstErr a (some e) ≠ none := by
  cases a <;> simp [firstErr]

theorem mapSet_append (rs : List (String × Val)) (k : String) (v : Val)
    (h : k ∉ rs.map Prod.fst) : mapSet rs k v = rs ++ [(k, v)] := by
  induction rs with
  | nil => rfl
  | cons p rest ih =>
    simp only [List.map_cons, List.mem_cons] at h
    push_neg at h
    have hne : ¬p.1 = k := fun hpk => h.1 hpk.symm
    simp [mapSet, hne, ih h.2]

theorem setAdd_append (s : List String) (k : String) (h : k ∉ s) :
    setAdd s k = s ++ [k] := by
  simp [setAdd, h]

theorem buildContext_nil_deps (n : DagNode) (h : n.dependencies = [])
    (rs rs2 : List (String × Val)) : buildContext n rs = buildContext n rs2 := by
  simp [buildContext, depResults, h]

theorem rootCtx_eq (n : DagNode) (h : n.dependencies = []) (rs : List (String × Val)) :
    buildContext n rs = rootCtx n :=
  buildContext_nil_deps n h rs []

theorem launchStep_skip1 (acc : ExecSt × List (String × Except String Val)) (n : DagNode)
    (h : n.id ∈ acc.1.completed) : launchStep acc n = acc := by
  simp [launchStep, h]

theorem launchStep_skip2 (acc : ExecSt × List (String × Except String Val)) (n : DagNode)
    (h1 : n.id ∉ acc.1.completed) (h2 : n.id ∈ acc.2.map Prod.fst) :
    launchStep acc n = acc := by
  simp [launchStep, h1, h2]

theorem launchStep_add (acc : ExecSt × List (String × Except String Val)) (n : DagNode)
    (h1 : n.id ∉ acc.1.completed) (h2 : n.id ∉ acc.2.map Prod.fst) :
    launchStep acc n =
      ({ acc.1 with trace := acc.1.trace ++
          [⟨n, acc.1.results, acc.1.completed, buildContext n acc.1.results⟩] },
        acc.2 ++ [(n.id, n.agent (buildContext n acc.1.results))]) := by
  simp [launchStep, h1, h2]

theorem launchStep_state (acc : ExecSt × List (String × Except String Val)) (n : DagNode) :
    (launchStep acc n).1.results = acc.1.results ∧
    (launchStep acc n).1.completed = acc.1.completed := by
  by_cases h1 : n.id ∈ acc.1.completed
  · rw [launchStep_skip1 acc n h1]
    exact ⟨rfl, rfl⟩
  · by_cases h2 : n.id ∈ acc.2.map Prod.fst
    · rw [launchStep_skip2 acc n h1 h2]
      exact ⟨rfl, rfl⟩
    · rw [launchStep_add acc n h1 h2]
      exact ⟨rfl, rfl⟩

theorem launchPhase_cons (n : DagNode) (rest : List DagNode)
    (acc : ExecSt × List (String × Except String Val)) :
    launchPhase (n :: rest) acc = launchPhase rest (launchStep acc n) :=
  rfl

theorem launchPhase_state (L : List DagNode) :
    ∀ acc, (launchPhase L acc).1.results = acc.1.results ∧
      (launchPhase L acc).1.completed = acc.1.completed := by
  induction L with
  | nil => intro acc; exact ⟨rfl, rfl⟩
  | cons n rest ih =>
    intro acc
    rw [launchPhase_cons]
    have h := launchStep_state acc n
    have h2 := ih (launchStep acc n)
    exact ⟨h2.1.trans h.1, h2.2.trans h.2⟩

/-- Provenance of trace events: every event of a launch pass was either
already recorded, or records a node of the launched list invoked on the
state the pass started from (which a launch pass never changes). -/
theorem launchPhase_trace_mem (L : List DagNode) :
    ∀ acc evt, evt ∈ (launchPhase L acc).1.trace →
      evt ∈ acc.1.trace ∨
      (evt.node ∈ L ∧ evt.resultsSnap = acc.1.results ∧
        evt.completedSnap = acc.1.completed ∧
        evt.builtContext = buildContext evt.node acc.1.results) := by
  induction L with
  | nil => intro acc evt h; exact Or.inl h
  | cons n rest ih =>
    intro acc evt h
    rw [launchPhase_cons] at h
    have hstep := launchStep_state acc n
    rcases ih (launchStep acc n) evt h with hin | ⟨hnode, hrs, hcs, hbc⟩
    · by_cases h1 : n.id ∈ acc.1.completed
      · rw [launchStep_skip1 acc n h1] at hin
        exact Or.inl hin
      · by_cases h2 : n.id ∈ acc.2.map Prod.fst
        · rw [launchStep_skip2 acc n h1 h2] at hin
          exact Or.inl hin
        · rw [launchStep_add acc n h1 h2] at hin
          rcases List.mem_append.mp hin with h3 | h3
          · exact Or.inl h3
          · right
            rw [List.mem_singleton.mp h3]
            exact ⟨List.mem_cons_self n rest, rfl, rfl, rfl⟩
    · right
      rw [hstep.1] at hrs hbc
      rw [hstep.2] at hcs
      exact ⟨List.mem_cons_of_mem n hnode, hrs, hcs, hbc⟩

/-- The in-flight list built by a launch pass has pairwise-distinct ids
(the `executing` guard) and none of them is already completed (the
`completed` guard; the completed set does not change during the pass). -/
theorem launchPhase_pend (L : List DagNode) :
    ∀ acc, (acc.2.map Prod.fst).Nodup →
      (∀ p ∈ acc.2, p.1 ∉ acc.1.completed) →
      ((launchPhase L acc).2.map Prod.fst).Nodup ∧
      (∀ p ∈ (launchPhase L acc).2, p.1 ∉ (launchPhase L acc).1.completed) := by
  induction L with
  | nil => intro acc h1 h2; exact ⟨h1, h2⟩
  | cons n rest ih =>
    intro acc h1 h2
    rw [launchPhase_cons]
    by_cases g1 : n.id ∈ acc.1.completed
    · rw [launchStep_skip1 acc n g1]
      exact ih acc h1 h2
    · by_cases g2 : n.id ∈ acc.2.map Prod.fst
      · rw [launchStep_skip2 acc n g1 g2]
        exact ih acc h1 h2
      · rw [launchStep_add acc n g1 g2]
        refine ih _ ?_ ?_
        · simp only [List.map_append, List.map_cons, List.map_nil]
          simp [List.nodup_append, h1, g2]
        · intro p hp
          rcases List.mem_append.mp hp with hp1 | hp1
          · exact h2 p hp1
          · rw [List.mem_singleton.mp hp1]
            exact g1

/-- A launch pass over dependency-free nodes with pairwise-distinct ids,
none already completed or in flight, launches every node exactly once, in
order, each invoked on its root context against the (unchanging) state
the pass started from. -/
theorem launchPhase_all (L : List DagNode) :
    ∀ acc, (∀ n ∈ L, n.dependencies = []) →
      ((L.map (fun n => n.id)).Nodup) →
      (∀ n ∈ L, n.id ∉ acc.1.completed) →
      (∀ n ∈ L, n.id ∉ acc.2.map Prod.fst) →
      (launchPhase L acc).2 = acc.2 ++ L.map (fun n => (n.id, n.agent (rootCtx n))) ∧
      (launchPhase L acc).1.trace = acc.1.trace ++
        L.map (fun n => ⟨n, acc.1.results, acc.1.completed, rootCtx n⟩) := by
  induction L with
  | nil =>
    intro acc _ _ _ _
    refine ⟨?_, ?_⟩ <;> simp [launchPhase]
  | cons n rest ih =>
    intro acc hL hnd hd1 hd2
    have hn : n.dependencies = [] := hL n (List.mem_cons_self n rest)
    have g1 : n.id ∉ acc.1.completed := hd1 n (List.mem_cons_self n rest)
    have g2 : n.id ∉ acc.2.map Prod.fst := hd2 n (List.mem_cons_self n rest)
    have hid_rest : ∀ m ∈ rest, m.id ≠ n.id := by
      intro m hm heq
      simp only [List.map_cons, List.nodup_cons] at hnd
      exact hnd.1 (heq ▸ List.mem_map_of_mem (fun n => n.id) hm)
    have hctx : buildContext n acc.1.results = rootCtx n := rootCtx_eq n hn acc.1.results
    have hpend : (launchStep acc n).2 = acc.2 ++ [(n.id, n.agent (rootCtx n))] := by
      rw [launchStep_add acc n g1 g2, hctx]
    have htrace : (launchStep acc n).1.trace =
        acc.1.trace ++ [⟨n, acc.1.results, acc.1.completed, rootCtx n⟩] := by
      rw [launchStep_add acc n g1 g2, hctx]
    have hst := launchStep_state acc n
    have hih := ih (launchStep acc n)
      (fun m hm => hL m (List.mem_cons_of_mem n hm))
      (by simp only [List.map_cons, List.nodup_cons] at hnd; exact hnd.2)
      (by
        intro m hm
        rw [hst.2]
        exact hd1 m (List.mem_cons_of_mem n hm))
      (by
        intro m hm
        rw [hpend]
        simp only [List.map_append, List.map_cons, List.map_nil, List.mem_append,
          List.mem_singleton]
        rintro (hmem | heq)
        · exact hd2 m (List.mem_cons_of_mem n hm) hmem
        · exact hid_rest m hm heq)
    rw [launchPhase_cons]
    constructor
    · rw [hih.1, hpend]
      simp
    · rw [hih.2, htrace, hst.1, hst.2]
      simp

theorem settleStep_err (acc : ExecSt × Option String) (p : String × Except String Val)
    (e : String) (hp : p.2 = Except.error e) :
    settleStep acc p = (acc.1, firstErr acc.2 (some e)) := by
  unfold settleStep
  rw [hp]

theorem settleStep_ok (acc : ExecSt × Option String) (p : String × Except String Val)
    (v : Val) (hp : p.2 = Except.ok v) :
    settleStep acc p =
      ({ acc.1 with
         results := mapSet acc.1.results p.1 v,
         completed := setAdd acc.1.completed p.1 }, acc.2) := by
  unfold settleStep
  rw [hp]

theorem settlePhase_cons (p : String × Except String Val)
    (rest : List (String × Except String Val)) (acc : ExecSt × Option String) :
    settlePhase (p :: rest) acc = settlePhase rest (settleStep acc p) :=
  rfl

theorem settlePhase_trace (pend : List (String × Except String Val)) :
    ∀ acc, (settlePhase pend acc).1.trace = acc.1.trace := by
  induction pend with
  | nil => intro acc; rfl
  | cons p rest ih =>
    intro acc
    rw [settlePhase_cons]
    have h1 : (settleStep acc p).1.trace = acc.1.trace := by
      cases hp : p.2 with
      | error e => rw [settleStep_err acc p e hp]
      | ok v => rw [settleStep_ok acc p v hp]
    exact (ih (settleStep acc p)).trans h1

/-- Promise.all resolves exactly when no initial rejection is recorded and
every launched promise fulfils. -/
theorem settlePhase_err (pend : List (String × Except String Val)) :
    ∀ acc : ExecSt × Option String,
      ((settlePhase pend acc).2 = none ↔
        acc.2 = none ∧ ∀ p ∈ pend, ∃ v, p.2 = Except.ok v) := by
  induction pend with
  | nil =>
    intro acc
    simp [settlePhase]
  | cons p rest ih =>
    intro acc
    rw [settlePhase_cons, ih (settleStep acc p)]
    cases hp : p.2 with
    | error e =>
      rw [settleStep_err acc p e hp]
      dsimp only
      constructor
      · rintro ⟨habs, -⟩
        exact absurd habs (firstErr_some_ne acc.2 e)
      · rintro ⟨-, hall⟩
        obtain ⟨v, hv⟩ := hall p (List.mem_cons_self p rest)
        rw [hp] at hv
        cases hv
    | ok v =>
      rw [settleStep_ok acc p v hp]
      dsimp only
      constructor
      · rintro ⟨h0, hall⟩
        refine ⟨h0, ?_⟩
        intro q hq
        rcases List.mem_cons.mp hq with rfl | hq2
        · exact ⟨v, hp⟩
        · exact hall q hq2
      · rintro ⟨h0, hall⟩
        exact ⟨h0, fun q hq => hall q (List.mem_cons_of_mem p hq)⟩

/-- Through the completion continuations, the results map's keys stay
aligned with the completed set (one write per id, at completion, never
overwritten), given that the pending ids are pairwise distinct and not yet
completed — which the launch guards guarantee. -/
theorem settlePhase_inv (pend : List (String × Except String Val)) :
    ∀ acc : ExecSt × Option String,
      acc.1.results.map Prod.fst = acc.1.completed →
      acc.1.completed.Nodup →
      (pend.map Prod.fst).Nodup →
      (∀ p ∈ pend, p.1 ∉ acc.1.completed) →
      ((settlePhase pend acc).1.results.map Prod.fst = (settlePhase pend acc).1.completed ∧
       (settlePhase pend acc).1.completed.Nodup) := by
  induction pend with
  | nil => intro acc h1 h2 _ _; exact ⟨h1, h2⟩
  | cons p rest ih =>
    intro acc h1 h2 h3 h4
    have hpc : p.1 ∉ acc.1.completed := h4 p (List.mem_cons_self p rest)
    simp only [List.map_cons, List.nodup_cons] at h3
    rw [settlePhase_cons]
    cases hp : p.2 with
    | error e =>
      rw [settleStep_err acc p e hp]
      exact ih _ h1 h2 h3.2 (fun q hq => h4 q (List.mem_cons_of_mem p hq))
    | ok v =>
      rw [settleStep_ok acc p v hp]
      have hfresh : p.1 ∉ acc.1.results.map Prod.fst := by
        rw [h1]
        exact hpc
      refine ih _ ?_ ?_ h3.2 ?_
      · dsimp only
        rw [mapSet_append acc.1.results p.1 v hfresh,
          setAdd_append acc.1.completed p.1 hpc]
        simp [h1]
      · dsimp only
        rw [setAdd_append acc.1.completed p.1 hpc]
        simp [List.nodup_append, h2, hpc]
      · intro q hq
        dsimp only
        rw [setAdd_append acc.1.completed p.1 hpc]
        intro hmem
        rcases List.mem_append.mp hmem with hmm | hmm
        · exact h4 q (List.mem_cons_of_mem p hq) hmm
        · have hne : q.1 ≠ p.1 := by
            intro heq
            exact h3.1 (heq ▸ List.mem_map_of_mem Prod.fst hq)
          exact hne (List.mem_singleton.mp hmm)

/-- The trace of a whole run is the trace of its launch pass: completion
continuations never invoke anything. -/
theorem execRun_trace (dag : Dag) :
    (execRun dag).1.trace = (launchPhase (roots dag) (initExecSt, [])).1.trace := by
  rw [execRun_def dag]
  exact settlePhase_trace _ _

theorem map_node_mk (L : List DagNode) (rs : List (String × Val)) (cs : List String) :
    (L.map (fun n => (⟨n, rs, cs, rootCtx n⟩ : CallEvent))).map (fun e => e.node) = L := by
  induction L with
  | nil => rfl
  | cons n rest ih => simp [ih]

/-- Every trace event of a run records a dependency-free root invoked on
the empty initial state. -/
theorem execRun_trace_mem (dag : Dag) :
    ∀ evt ∈ (execRun dag).1.trace,
      evt.node ∈ roots dag ∧ evt.resultsSnap = [] ∧ evt.completedSnap = [] ∧
      evt.builtContext = buildContext evt.node [] := by
  intro evt hevt
  rw [execRun_trace dag] at hevt
  rcases launchPhase_trace_mem (roots dag) (initExecSt, []) evt hevt with h | h
  · exact absurd h (List.not_mem_nil evt)
  · exact h

theorem seqRun_halted (L : List SeqStep) (st : SeqSt) (h : st.halted = true) :
    seqRun L st = st := by
  cases L with
  | nil => rfl
  | cons s rest => simp [seqRun, h]

theorem seqRun_append (xs ys : List SeqStep) :
    ∀ st : SeqSt, seqRun (xs ++ ys) st = seqRun ys (seqRun xs st) := by
  induction xs with
  | nil => intro st; rfl
  | cons s rest ih =>
    intro st
    by_cases h : st.halted = true
    · rw [List.cons_append, seqRun_halted (s :: (rest ++ ys)) st h,
        seqRun_halted (s :: rest) st h, seqRun_halted ys st h]
    · simp only [List.cons_append, seqRun, h, Bool.false_eq_true, if_false]
      cases hr : (s.op (stepContextOf s st)).success <;> simp [hr, ih, seqRun_halted]

theorem seqRun_clean (L : List SeqStep) :
    ∀ st : SeqSt, st.halted = false → (seqRun L st).halted = false →
      (seqRun L st).results.map Prod.fst = st.results.map Prod.fst ++ L.map SeqStep.name ∧
      (seqRun L st).invoked = st.invoked ++ L.map SeqStep.name ∧
      (seqRun L st).results.length = st.results.length + L.length := by
  induction L with
  | nil => intro st _ _; simp [seqRun]
  | cons s rest ih =>
    intro st hst hend
    simp only [seqRun, hst, Bool.false_eq_true, if_false] at hend ⊢
    cases hr : (s.op (stepContextOf s st)).success with
    | false =>
      rw [hr] at hend
      simp only [Bool.false_eq_true, if_false] at hend
      exact absurd hend (by simp)
    | true =>
      rw [hr] at hend
      rw [if_pos rfl] at hend
      rw [if_pos rfl]
      have hih := ih _ rfl hend
      refine ⟨?_, ?_, ?_⟩
      · rw [hih.1]; simp
      · rw [hih.2.1]; simp
      · rw [hih.2.2]; simp; omega

theorem cycle_head (steps : List SpecStep) (x : String)
    (h : Relation.TransGen (DepEdge steps) x x) :
    ∃ y, DepEdge steps x y ∧ Relation.TransGen (DepEdge steps) y y := by
  obtain ⟨y, hxy, hyx⟩ := Relation.TransGen.head'_iff.mp h
  exact ⟨y, hxy, Relation.TransGen.trans_right hyx (Relation.TransGen.single hxy)⟩

theorem eligible_mem (steps : List SpecStep) (done : List String) (x : String) :
    x ∈ eligible steps done ↔
      ∃ s, s ∈ steps ∧ s.name = x ∧ x ∉ done ∧ ∀ d ∈ s.dependencies, d ∈ done := by
  constructor
  · intro hx
    simp only [eligible, List.mem_map, List.mem_filter, Bool.and_eq_true,
      decide_eq_true_eq, List.all_eq_true] at hx
    obtain ⟨s, ⟨hs, hnotdone, hdeps⟩, rfl⟩ := hx
    exact ⟨s, hs, rfl, hnotdone, hdeps⟩
  · rintro ⟨s, hs, rfl, hnd2, hdeps⟩
    simp only [eligible, List.mem_map, List.mem_filter, Bool.and_eq_true,
      decide_eq_true_eq, List.all_eq_true]
    exact ⟨s, ⟨hs, hnd2, hdeps⟩, rfl⟩

theorem topoPass_avoid (steps : List SpecStep) (hnd : (namesOf steps).Nodup) :
    ∀ (fuel : Nat) (done : List String),
      (∀ x, Relation.TransGen (DepEdge steps) x x → x ∉ done) →
      ∀ x, Relation.TransGen (DepEdge steps) x x → x ∉ topoPass steps fuel done := by
  intro fuel
  induction fuel with
  | zero =>
    intro done h x hx
    exact h x hx
  | succ n ih =>
    intro done h x hx
    simp only [topoPass]
    by_cases he : (eligible steps done).isEmpty
    · rw [if_pos he]
      exact h x hx
    · rw [if_neg he]
      refine ih _ ?_ x hx
      intro z hz hmem
      rcases List.mem_append.mp hmem with hm | hm
      · exact h z hz hm
      · obtain ⟨s, hs, hsname, hznd, hdeps⟩ := (eligible_mem steps done z).mp hm
        obtain ⟨y, hzy, hyy⟩ := cycle_head steps z hz
        obtain ⟨s2, hs2, hs2name, hydep⟩ := hzy
        have hss : s2 = s :=
          List.inj_on_of_nodup_map hnd hs2 hs (by rw [hs2name, hsname])
        rw [hss] at hydep
        exact h y hyy (hdeps y hydep)

theorem detectCycle_true (steps : List SpecStep) (hnd : (namesOf steps).Nodup)
    (hcyc : HasCycle steps) : detectCycle steps = true := by
  obtain ⟨a, ha⟩ := hcyc
  obtain ⟨y, hay, hyy⟩ := cycle_head steps a ha
  obtain ⟨s, hs, hsname, hydep⟩ := hay
  have hnotin : a ∉ topoPass steps steps.length [] :=
    topoPass_avoid steps hnd steps.length []
      (fun x hx hmem => (List.not_mem_nil x) hmem) a ha
  unfold detectCycle
  simp only [List.any_eq_true, decide_eq_true_eq]
  exact ⟨s, hs, by rw [hsname]; exact hnotin⟩

theorem execute_eq_error (dag : Dag) (e : String) (h : (execRun dag).2 = some e) :
    DAGExecutor.execute dag = Except.error e := by
  unfold DAGExecutor.execute
  rcases hp : execRun dag with ⟨st, err⟩
  rw [hp] at h
  dsimp at h
  subst h
  rfl

theorem execute_eq_ok (dag : Dag) (h : (execRun dag).2 = none) :
    DAGExecutor.execute dag = Except.ok (execRun dag).1.results := by
  unfold DAGExecutor.execute
  rcases hp : execRun dag with ⟨st, err⟩
  rw [hp] at h
  dsimp at h
  subst h
  rfl

theorem execute_ok_iff (dag : Dag) :
    (∃ r, DAGExecutor.execute dag = Except.ok r) ↔ (execRun dag).2 = none := by
  constructor
  · rintro ⟨r, hr⟩
    cases hcase : (execRun dag).2 with
    | none => rfl
    | some e =>
      rw [execute_eq_error dag e hcase] at hr
      cases hr
  · intro h
    exact ⟨_, execute_eq_ok dag h⟩

/-! Claim theorems. -/

/-- C1: evaluation of DAGExecutor.execute at the failing input
`dagAB = {nodes: [A (no dependencies, succeeds), B (dependencies [A],
would succeed)]}`.  The run resolves with only the root executed: "B" is
never invoked, never completed, and reaches no terminal record of any
kind, because execute launches only dependency-free roots and executeNode
recurses on dependencies, never on dependents.  This contradicts the
claim (and the documentation's own example, which expects results for the
dependent nodes of its seven-node dag). -/
theorem claim_C1_dependent_node_left_unexecuted :
    DAGExecutor.execute dagAB = Except.ok [("A", Val.nat 1)] ∧
    (execState dagAB).completed = ["A"] ∧
    invokedIds dagAB = ["A"] :=
  ⟨rfl, rfl, rfl⟩

/-- C2: for every step set with distinct step names whose dependency graph
contains a cycle, registerSteps (modelled from the spec — its source,
`src/engine/PipelineEngine.js` per PHASE_1_COMPLETE.md, is not in the
repository) fails with CycleError.  Registration is pure validation: no
execution state exists at that point, so no step transition occurs. -/
theorem claim_C2_cycle_fails_with_cycleError (steps : List SpecStep)
    (hnd : (namesOf steps).Nodup) (hcyc : HasCycle steps) :
    registerSteps steps = Except.error RegError.cycleError := by
  unfold registerSteps
  rw [detectCycle_true steps hnd hcyc]
  rfl

/-- C2 witness: the two-step cycle A -> B -> A is rejected with
CycleError. -/
theorem claim_C2_witness :
    (namesOf cyclicSteps).Nodup ∧ HasCycle cyclicSteps ∧
    registerSteps cyclicSteps = Except.error RegError.cycleError := by
  have hnd : (namesOf cyclicSteps).Nodup := by decide
  have e1 : DepEdge cyclicSteps "A" "B" :=
    ⟨⟨"A", ["B"]⟩, List.mem_cons_self _ _, rfl, List.mem_singleton.mpr rfl⟩
  have e2 : DepEdge cyclicSteps "B" "A" :=
    ⟨⟨"B", ["A"]⟩, List.mem_cons_of_mem _ (List.mem_cons_self _ _), rfl,
      List.mem_singleton.mpr rfl⟩
  have hcyc : HasCycle cyclicSteps :=
    ⟨"A", Relation.TransGen.tail (Relation.TransGen.single e1) e2⟩
  exact ⟨hnd, hcyc, claim_C2_cycle_fails_with_cycleError cyclicSteps hnd hcyc⟩

/-- C3 counterexample: dag {A (operation fails), B (depends on A)}.  The
claim's conclusion — after the run resolves, B's state is Skipped — fails:
the run never resolves (execute rejects with A's error; the code records
no Skipped state anywhere).  B's operation is indeed not invoked. -/
theorem claim_C3_counterexample :
    DAGExecutor.execute dagFailDep = Except.error "boom" ∧
    (∀ r, DAGExecutor.execute dagFailDep ≠ Except.ok r) ∧
    invokedIds dagFailDep = ["A"] := by
  refine ⟨rfl, ?_, rfl⟩
  intro r hr
  have hb : DAGExecutor.execute dagFailDep = Except.error "boom" := rfl
  rw [hb] at hr
  cases hr

/-- C3 amended: if a dependency-free step's operation fails, the run
rejects with an error instead of resolving with per-step outcomes, and a
step that declares any dependency (in particular a direct or transitive
dependency on the failed step) is never invoked — there is no Skipped
state to record for it. -/
theorem claim_C3_failure_rejects_run (dag : Dag) (A B : DagNode)
    (hnd : (dag.nodes.map (fun n => n.id)).Nodup)
    (hA : A ∈ dag.nodes) (hAroot : A.dependencies = [])
    (e : String) (hAfail : A.agent (rootCtx A) = Except.error e)
    (hBdep : B.dependencies ≠ []) :
    (∃ e2, DAGExecutor.execute dag = Except.error e2) ∧
    (∀ evt ∈ (execState dag).trace, evt.node ≠ B) := by
  have hndroots : ((roots dag).map (fun n => n.id)).Nodup :=
    hnd.sublist ((List.filter_sublist dag.nodes).map (fun n => n.id))
  have hArt : A ∈ roots dag :=
    List.mem_filter.mpr ⟨hA, by simp [hAroot]⟩
  have hall := launchPhase_all (roots dag) (initExecSt, []) (roots_dependencies dag)
    hndroots (fun n _ => List.not_mem_nil n.id) (fun n _ => List.not_mem_nil n.id)
  constructor
  · cases hcase : (execRun dag).2 with
    | none =>
      exfalso
      rw [execRun_def dag] at hcase
      have hok := (settlePhase_err _ _).mp hcase
      have hmem : (A.id, A.agent (rootCtx A)) ∈
          (launchPhase (roots dag) (initExecSt, [])).2 := by
        rw [hall.1]
        simp only [List.nil_append]
        exact List.mem_map_of_mem _ hArt
      obtain ⟨v, hv⟩ := hok.2 _ hmem
      dsimp only at hv
      rw [hAfail] at hv
      cases hv
    | some e2 => exact ⟨e2, execute_eq_error dag e2 hcase⟩
  · intro evt hevt heq
    have h := execRun_trace_mem dag evt hevt
    have hd : evt.node.dependencies = [] := roots_dependencies dag evt.node h.1
    rw [heq] at hd
    exact hBdep hd

/-- C3 witness: the amended statement at the concrete dag {A fails,
B depends on A}. -/
theorem claim_C3_witness :
    (dagFailDep.nodes.map (fun n => n.id)).Nodup ∧
    nodeAfail ∈ dagFailDep.nodes ∧
    nodeAfail.dependencies = [] ∧
    nodeAfail.agent (rootCtx nodeAfail) = Except.error "boom" ∧
    nodeB.dependencies ≠ [] ∧
    ((∃ e2, DAGExecutor.execute dagFailDep = Except.error e2) ∧
     (∀ evt ∈ (execState dagFailDep).trace, evt.node ≠ nodeB)) := by
  refine ⟨by decide, List.mem_cons_self _ _, rfl, rfl, by decide, ?_⟩
  exact claim_C3_failure_rejects_run dagFailDep nodeAfail nodeB (by decide)
    (List.mem_cons_self _ _) rfl "boom" rfl (by decide)

/-- C4 counterexample: a single-step dag whose operation fails makes the
whole run reject — run is not failure-tolerant and resolves with no
ExecutionResult recording the outcome. -/
theorem claim_C4_counterexample :
    DAGExecutor.execute dagFailOnly = Except.error "boom" ∧
    (∀ r, DAGExecutor.execute dagFailOnly ≠ Except.ok r) := by
  refine ⟨rfl, ?_⟩
  intro r hr
  have hb : DAGExecutor.execute dagFailOnly = Except.error "boom" := rfl
  rw [hb] at hr
  cases hr

/-- C4 amended: run resolves exactly when the operation of every step it
schedules (the dependency-free roots) succeeds; any scheduled step's
failure rejects the whole run, and no Failed or Skipped outcome is
recorded. -/
theorem claim_C4_resolves_iff_scheduled_succeed (dag : Dag)
    (hnd : (dag.nodes.map (fun n => n.id)).Nodup) :
    (∃ r, DAGExecutor.execute dag = Except.ok r) ↔
      ∀ n ∈ roots dag, ∃ v, n.agent (rootCtx n) = Except.ok v := by
  have hndroots : ((roots dag).map (fun n => n.id)).Nodup :=
    hnd.sublist ((List.filter_sublist dag.nodes).map (fun n => n.id))
  have hall := launchPhase_all (roots dag) (initExecSt, []) (roots_dependencies dag)
    hndroots (fun n _ => List.not_mem_nil n.id) (fun n _ => List.not_mem_nil n.id)
  rw [execute_ok_iff dag, execRun_def dag, settlePhase_err, hall.1]
  simp [List.mem_map]

/-- C4 witness: the amended statement at the two-node dag with a
succeeding root. -/
theorem claim_C4_witness :
    (dagAB.nodes.map (fun n => n.id)).Nodup ∧
    ((∃ r, DAGExecutor.execute dagAB = Except.ok r) ↔
      ∀ n ∈ roots dagAB, ∃ v, n.agent (rootCtx n) = Except.ok v) :=
  ⟨by decide, claim_C4_resolves_iff_scheduled_succeed dagAB (by decide)⟩

/-- C5: in every run, at the instant a step's operation is invoked, every
declared dependency of that step is in the completed set (vacuously for
the dependency-free roots, which are the only steps the executor ever
invokes). -/
theorem claim_C5_deps_completed_at_invocation (dag : Dag) :
    EventsOK (fun e => ∀ d ∈ e.node.dependencies, d ∈ e.completedSnap)
      (execState dag).trace := by
  rw [EventsOK_iff_forall]
  intro evt hevt
  have h := execRun_trace_mem dag evt hevt
  intro d hd
  rw [roots_dependencies dag evt.node h.1] at hd
  exact absurd hd (List.not_mem_nil d)

/-- C6 counterexample: two independent roots A and B, where B's
contextBuilder is the identity function (so the recorded built context is
exactly the builder's input).  Each invoked builder receives exactly the
outputs of the steps Completed at that moment — the empty object, since
all launches happen in the synchronous pass before any completion — but
nothing more: execute accepts no initialContext argument (its only
parameter is the dag), so no caller-supplied context can appear in the
view.  For any intended nonempty initial context, e.g. an object with one
field "init" = 7, the view the claim requires (Completed outputs plus that
context) therefore differs from the empty view the builder received, even
in a run that completes both steps. -/
theorem claim_C6_counterexample :
    (execState dagTwoRoots).trace.map
      (fun e => (e.node.id, e.builtContext, e.completedSnap)) =
      [("A", Val.obj [], []), ("B", Val.obj [], [])] ∧
    (execState dagTwoRoots).completed = ["A", "B"] ∧
    Val.obj [] ≠ Val.obj [("init", Val.nat 7)] := by
  refine ⟨rfl, rfl, ?_⟩
  intro hv
  injection hv with hl
  exact absurd hl (by simp)

/-- C6 amended: the value passed to a step's operation is exactly
(verbatim) the value returned by the builder (the model invokes the agent
on the recorded built context), and the builder is invoked on the results
map at that moment — which is exactly the outputs of all steps Completed
at that moment, namely none, since every invocation happens during the
synchronous launch pass — with no caller-supplied initialContext, since
run accepts no such argument. -/
theorem claim_C6_builder_view_lacks_initialContext (dag : Dag) :
    EventsOK (fun e =>
      e.builtContext = buildContext e.node e.resultsSnap ∧
      e.resultsSnap = [] ∧ e.completedSnap = [])
      (execState dag).trace := by
  rw [EventsOK_iff_forall]
  intro evt hevt
  have h := execRun_trace_mem dag evt hevt
  refine ⟨?_, h.2.1, h.2.2.1⟩
  rw [h.2.1]
  exact h.2.2.2

/-- C7: two sequential invocations of execute on the same dag are
independent and identical: execute allocates its results map, executing
map and completed set afresh on every call, so the second run re-invokes
every scheduled step (no cross-run memoization) and returns the same
outcome as a first run. -/
theorem claim_C7_sequential_runs_independent (dag : Dag)
    (hnd : (dag.nodes.map (fun n => n.id)).Nodup) :
    (runTwice dag).1 = (runTwice dag).2 ∧
    (runTwice dag).2 = execRun dag ∧
    (runTwice dag).2.1.trace.map (fun e => e.node) = roots dag := by
  refine ⟨rfl, rfl, ?_⟩
  have hndroots : ((roots dag).map (fun n => n.id)).Nodup :=
    hnd.sublist ((List.filter_sublist dag.nodes).map (fun n => n.id))
  have hall := launchPhase_all (roots dag) (initExecSt, []) (roots_dependencies dag)
    hndroots (fun n _ => List.not_mem_nil n.id) (fun n _ => List.not_mem_nil n.id)
  show (execRun dag).1.trace.map (fun e => e.node) = roots dag
  rw [execRun_trace dag, hall.2, List.map_append, map_node_mk]
  rfl

/-- C7 witness: the two runs of the two-node dag coincide and the second
run re-invokes the root. -/
theorem claim_C7_witness :
    (dagAB.nodes.map (fun n => n.id)).Nodup ∧
    ((runTwice dagAB).1 = (runTwice dagAB).2 ∧
     (runTwice dagAB).2 = execRun dagAB ∧
     (runTwice dagAB).2.1.trace.map (fun e => e.node) = roots dagAB) :=
  ⟨by decide, claim_C7_sequential_runs_independent dagAB (by decide)⟩

/-- C8: the outputs map of a run is append-only: its keys are pairwise
distinct (each step writes at most once), the keys in order are exactly
the completed ids in completion order (a step writes only its own slot,
exactly when it completes), and the map recorded at every invocation
instant is a prefix of the final map (no entry is ever overwritten or
removed; intermediate readers only see prefixes). -/
theorem claim_C8_outputs_append_only (dag : Dag) :
    ((execState dag).results.map Prod.fst).Nodup ∧
    (execState dag).results.map Prod.fst = (execState dag).completed ∧
    EventsOK (fun e => ∃ t, (execState dag).results = e.resultsSnap ++ t)
      (execState dag).trace := by
  have hlp := launchPhase_pend (roots dag) (initExecSt, []) List.nodup_nil
    (fun p hp => absurd hp (List.not_mem_nil p))
  have hls := launchPhase_state (roots dag) (initExecSt, [])
  have hinv := settlePhase_inv (launchPhase (roots dag) (initExecSt, [])).2
    ((launchPhase (roots dag) (initExecSt, [])).1, none)
    (by dsimp only; rw [hls.1, hls.2]; rfl)
    (by dsimp only; rw [hls.2]; exact List.nodup_nil)
    hlp.1 hlp.2
  have hfin : execState dag =
      (settlePhase (launchPhase (roots dag) (initExecSt, [])).2
        ((launchPhase (roots dag) (initExecSt, [])).1, none)).1 := rfl
  refine ⟨?_, ?_, ?_⟩
  · rw [hfin, hinv.1]
    exact hinv.2
  · rw [hfin]
    exact hinv.1
  · rw [EventsOK_iff_forall]
    intro evt hevt
    have h := execRun_trace_mem dag evt hevt
    exact ⟨(execState dag).results, by rw [h.2.1, List.nil_append]⟩

/-- C10: when the i-th step (0-indexed) of a SequentialPipeline.execute
call is the first whose operation returns an unsuccessful result, the call
returns the results of exactly the first i steps, in order; the failing
step and all later steps are absent from the returned array and from the
accumulated context (the final loop state equals the state after the first
i steps, plus the failing step's invocation record and the halt flag — in
particular no step after the i-th is ever invoked). -/
theorem claim_C10_first_failure_truncates (steps : List SeqStep) (i : Nat)
    (h : i < steps.length)
    (hclean : (seqRun (steps.take i) initSeqSt).halted = false)
    (hfail : ((steps.get ⟨i, h⟩).op
      (stepContextOf (steps.get ⟨i, h⟩) (seqRun (steps.take i) initSeqSt))).success
        = false) :
    seqRun steps initSeqSt =
      { seqRun (steps.take i) initSeqSt with
        invoked := (seqRun (steps.take i) initSeqSt).invoked
          ++ [(steps.get ⟨i, h⟩).name],
        halted := true } ∧
    SequentialPipeline.execute steps = (seqRun (steps.take i) initSeqSt).results ∧
    (seqRun (steps.take i) initSeqSt).results.map Prod.fst
      = (steps.take i).map SeqStep.name ∧
    (seqRun (steps.take i) initSeqSt).results.length = i ∧
    (seqRun (steps.take i) initSeqSt).invoked = (steps.take i).map SeqStep.name := by
  have hdecomp : steps.take i ++ steps.get ⟨i, h⟩ :: steps.drop (i + 1) = steps := by
    rw [List.get_cons_drop steps ⟨i, h⟩]
    exact List.take_append_drop i steps
  have hclean2 := seqRun_clean (steps.take i) initSeqSt rfl hclean
  have hmain : seqRun steps initSeqSt =
      { seqRun (steps.take i) initSeqSt with
        invoked := (seqRun (steps.take i) initSeqSt).invoked
          ++ [(steps.get ⟨i, h⟩).name],
        halted := true } := by
    conv_lhs => rw [← hdecomp]
    rw [seqRun_append]
    simp only [seqRun, hclean, Bool.false_eq_true, if_false, hfail]
  refine ⟨hmain, ?_, ?_, ?_, ?_⟩
  · show (seqRun steps initSeqSt).results = _
    rw [hmain]
  · simpa using hclean2.1
  · have hl := hclean2.2.2
    rw [hl]
    have hti : (List.take i steps).length = i := by
      rw [List.length_take]
      omega
    rw [hti]
    simp [initSeqSt]
  · simpa using hclean2.2.1

/-- C10 witness: the three-step pipeline whose second step (index 1)
fails returns only the first step's entry. -/
theorem claim_C10_witness :
    1 < seqSteps.length ∧
    (seqRun (seqSteps.take 1) initSeqSt).halted = false ∧
    ((seqSteps.get ⟨1, by decide⟩).op
      (stepContextOf (seqSteps.get ⟨1, by decide⟩)
        (seqRun (seqSteps.take 1) initSeqSt))).success = false ∧
    SequentialPipeline.execute seqSteps = (seqRun (seqSteps.take 1) initSeqSt).results :=
  ⟨by decide, rfl, rfl,
    (claim_C10_first_failure_truncates seqSteps 1 (by decide) rfl rfl).2.1⟩

end SdkExec
